import Mathlib

/-!
Verification of the spectral patch dataset pipeline (`lib/dataset.py`,
`lib/spec_utils.py`) of the `vocal-remover` repository.

The Python source is shallowly embedded: pure numeric code becomes Lean
functions on `ℕ`/`ℚ`; NumPy arrays become lists or index functions;
filesystem state becomes an explicit map from paths to artifacts; the
ambient random source (uniform draws, permutations, Beta samples) becomes
explicit parameters constrained only by the properties the corresponding
distribution guarantees (e.g. a Beta sample lies in `[0, 1]`).
-/

namespace VocalRemover

/-! ## Python semantics helpers -/

/-- Python `int()` applied to a nonnegative/negative rational: truncation
toward zero (the float in the source holds a value we model exactly in `ℚ`). -/
def pyInt (q : ℚ) : ℤ :=
  if q < 0 then -⌊-q⌋ else ⌊q⌋

/-- Index one past the last occurrence of `sep` in the list, `0` when `sep`
does not occur: Python's `s.rfind(sep) + 1`. -/
def rfindP1 (sep : Char) : List Char → ℕ
  | [] => 0
  | c :: cs =>
      let r := rfindP1 sep cs
      if r > 0 then r + 1 else if c = sep then 1 else 0

/-- Python `posixpath.basename`: everything after the last `'/'`. -/
def pyBasename (s : String) : String :=
  String.mk (s.data.drop (rfindP1 '/' s.data))

/-- Drop trailing occurrences of a character (Python `str.rstrip` with a
single-character argument), on reversed-friendly list form. -/
def dropTrailing (sep : Char) (l : List Char) : List Char :=
  (l.reverse.dropWhile (fun c => c = sep)).reverse

/-- Python `posixpath.dirname`: the prefix up to the last `'/'`, with
trailing slashes stripped unless the prefix consists only of slashes. -/
def pyDirname (s : String) : String :=
  let head := s.data.take (rfindP1 '/' s.data)
  if head ≠ [] ∧ head.any (fun c => c ≠ '/') then String.mk (dropTrailing '/' head)
  else String.mk head

/-- Python `posixpath.splitext`: split off the extension that starts at the
last dot, provided that dot lies after the last separator and the portion of
the basename before it is not entirely dots. -/
def pySplitext (s : String) : String × String :=
  let l := s.data
  let i := rfindP1 '/' l
  let d := rfindP1 '.' l
  if d > i ∧ ((l.drop i).take (d - 1 - i)).any (fun c => c ≠ '.') then
    (String.mk (l.take (d - 1)), String.mk (l.drop (d - 1)))
  else (s, "")

/-- Python `posixpath.join` for two components. -/
def pyJoin (a b : String) : String :=
  if b.data.head? = some '/' then b
  else if a = "" ∨ a.data.getLast? = some '/' then a ++ b
  else a ++ "/" ++ b

/-- Python `str.replace(old, new)` over explicit character lists, replacing
every non-overlapping occurrence of `old` left to right; `fuel` bounds the
number of characters scanned (structural recursion on `fuel`). -/
def pyReplaceAux (old new : List Char) : ℕ → List Char → List Char
  | 0, l => l
  | _ + 1, [] => []
  | fuel + 1, c :: cs =>
      if old ≠ [] ∧ old.isPrefixOf (c :: cs) then
        new ++ pyReplaceAux old new fuel ((c :: cs).drop old.length)
      else c :: pyReplaceAux old new fuel cs

/-- Python `str.replace(old, new)` on strings (the scan consumes at least one
character per step, so `s.length` fuel suffices). -/
def pyReplace (s old new : String) : String :=
  String.mk (pyReplaceAux old.data new.data s.data.length s.data)

/-! ## `make_padding` (`lib/dataset.py:90-97`) -/

/-- Function `make_padding(width, cropsize, offset)` from `lib/dataset.py`:
`left = offset`; `roi_size = cropsize - 2*left`, falling back to `cropsize`
when that is zero; `right = roi_size - width % roi_size + left`. -/
def make_padding (width cropsize offset : ℕ) : ℕ × ℕ × ℕ :=
  let left := offset
  let roi_size0 := cropsize - left * 2
  let roi_size := if roi_size0 = 0 then cropsize else roi_size0
  let right := roi_size - width % roi_size + left
  (left, right, roi_size)

theorem make_padding_eval : make_padding 1 64 1 = (1, 62, 62) := by decide

/-- Claim C2, counterexample: at `width = 1`, `cropsize = 64`, `offset = 1`
the padded width `width + left + right = 64` is NOT of the form
`m * roi_size + left = m * 62 + 1`: the claimed congruence
`(width + left + right - left) % roi_size = 0` fails. -/
theorem make_padding_claim_counterexample :
    make_padding 1 64 1 = (1, 62, 62) ∧ (1 + 1 + 62 - 1) % 62 ≠ 0 := by decide

/-- Claim C2 (amended): for every `width ∈ [1, 10000]`, `cropsize ∈
{64, 128, 256}` and `offset < cropsize / 2`, the triple
`(left, right, roi_size) = make_padding width cropsize offset` satisfies
`roi_size > 0` and the padded width `width + left + right` is an exact
multiple of `roi_size` plus `2 * left` (not plus `left` as claimed). -/
theorem make_padding_padded_width (width cropsize offset : ℕ)
    (hw1 : 1 ≤ width) (hw2 : width ≤ 10000)
    (hc : cropsize = 64 ∨ cropsize = 128 ∨ cropsize = 256)
    (ho : offset < cropsize / 2) :
    0 < (make_padding width cropsize offset).2.2 ∧
    ∃ m, width + (make_padding width cropsize offset).1 +
        (make_padding width cropsize offset).2.1 =
      m * (make_padding width cropsize offset).2.2 + 2 * offset := by
  have hc0 : 0 < cropsize := by rcases hc with h | h | h <;> omega
  have h2o : offset * 2 < cropsize := by
    have := Nat.div_mul_le_self cropsize 2
    omega
  have hroi0 : cropsize - offset * 2 ≠ 0 := by omega
  simp only [make_padding, hroi0, if_false]
  set roi := cropsize - offset * 2 with hroi
  have hroipos : 0 < roi := by omega
  refine ⟨hroipos, width / roi + 1, ?_⟩
  have h1 := Nat.div_add_mod width roi
  have h2 : width % roi < roi := Nat.mod_lt _ hroipos
  have h3 : (width / roi + 1) * roi = roi * (width / roi) + roi := by ring
  omega

theorem make_padding_padded_width_witness :
    0 < (make_padding 100 64 4).2.2 ∧
    ∃ m, 100 + (make_padding 100 64 4).1 + (make_padding 100 64 4).2.1 =
      m * (make_padding 100 64 4).2.2 + 2 * 4 :=
  make_padding_padded_width 100 64 4 (by decide) (by decide) (Or.inl rfl) (by decide)

/-! ## Pitch-variant path substitution in `make_training_set`
(`lib/dataset.py:118-127`) -/

/-- The path-selection step at the top of the `make_training_set` loop:
`p = np.random.uniform()` is passed in explicitly; for `p < 0.1` (resp.
`0.1 ≤ p < 0.2`) the source evaluates `X_path.replace(splitext(X_path)[1],
'_pitch-1.wav')` (resp. `'_pitch1.wav'`) and likewise for `y_path`, but as an
expression statement whose value is bound to nothing — modelled here by the
discarded `let` bindings; the function returns the paths that the source then
passes to `spec_utils.cache_or_load`. -/
def make_training_set_paths (X_path y_path : String) (p : ℚ) : String × String :=
  if p < 1/10 then
    let _ := pyReplace X_path (pySplitext X_path).2 "_pitch-1.wav"
    let _ := pyReplace y_path (pySplitext y_path).2 "_pitch-1.wav"
    (X_path, y_path)
  else if p < 2/10 then
    let _ := pyReplace X_path (pySplitext X_path).2 "_pitch1.wav"
    let _ := pyReplace y_path (pySplitext y_path).2 "_pitch1.wav"
    (X_path, y_path)
  else (X_path, y_path)

/-- Modelled from the spec: the intended behaviour of the same step, in which
the pitch-shifted filename variant actually substitutes the pair's paths
before the spectrogram is resolved. -/
def make_training_set_paths_spec (X_path y_path : String) (p : ℚ) : String × String :=
  if p < 1/10 then
    (pyReplace X_path (pySplitext X_path).2 "_pitch-1.wav",
     pyReplace y_path (pySplitext y_path).2 "_pitch-1.wav")
  else if p < 2/10 then
    (pyReplace X_path (pySplitext X_path).2 "_pitch1.wav",
     pyReplace y_path (pySplitext y_path).2 "_pitch1.wav")
  else (X_path, y_path)

/-- Claim C1: false on the code. The `str.replace` results are discarded, so
for every draw `p` the paths handed to the spectrogram cache are the original
ones; in particular at `p = 1/20 < 0.1` the resolved paths do not end in
`'_pitch-1.wav'`, though the spec-modelled substitution would produce them. -/
theorem make_training_set_paths_bug :
    (∀ (X_path y_path : String) (p : ℚ),
        make_training_set_paths X_path y_path p = (X_path, y_path)) ∧
    make_training_set_paths "mix/song.wav" "inst/song.wav" (1/20) =
      ("mix/song.wav", "inst/song.wav") ∧
    make_training_set_paths_spec "mix/song.wav" "inst/song.wav" (1/20) =
      ("mix/song_pitch-1.wav", "inst/song_pitch-1.wav") := by
  have hlt : (1:ℚ)/20 < 1/10 := by norm_num
  have hall : ∀ (X_path y_path : String) (p : ℚ),
      make_training_set_paths X_path y_path p = (X_path, y_path) := by
    intro X_path y_path p
    unfold make_training_set_paths
    by_cases h1 : p < 1/10
    · rw [if_pos h1]
    · rw [if_neg h1]
      by_cases h2 : p < 2/10
      · rw [if_pos h2]
      · rw [if_neg h2]
  refine ⟨hall, hall _ _ _, ?_⟩
  rw [make_training_set_paths_spec, if_pos hlt]
  decide

/-! ## `train_val_split` (`lib/dataset.py:53-66`) -/

/-- Python slice `l[:-v]` for a nonnegative `v`; note that `l[:-0]` is
`l[:0] = []`, not the whole list. -/
def pySliceToNeg (l : List α) (v : ℕ) : List α :=
  if v = 0 then [] else l.take (l.length - v)

/-- Python slice `l[-v:]` for a nonnegative `v`; note that `l[-0:]` is
`l[0:] = l`, the whole list. -/
def pySliceFromNeg (l : List α) (v : ℕ) : List α :=
  if v = 0 then l else l.drop (l.length - v)

/-- Function `train_val_split` in its empty explicit-validation-list branch
(`lib/dataset.py:57-60`), taken after the `random.shuffle`: the already
shuffled list is the input (the shuffle is external randomness), `val_size =
int(len(filelist) * val_rate)`, and the function returns
`(filelist[:-val_size], filelist[-val_size:])`. Modelled for `val_rate ≥ 0`,
where Python's `int()` is the floor. -/
def train_val_split_empty (filelist : List (String × String)) (val_rate : ℚ) :
    List (String × String) × List (String × String) :=
  let val_size := (pyInt ((filelist.length : ℚ) * val_rate)).toNat
  (pySliceToNeg filelist val_size, pySliceFromNeg filelist val_size)

/-- Claim C3: false on the code. With three pairs and `val_rate = 0.1` we get
`val_size = int(0.3) = 0`, and the Python slices `[:-0]`/`[-0:]` return the
empty list and the whole list: the validation list holds all 3 pairs where
the claim demands `floor(3 * 0.1) = 0` of them (and the train list is empty). -/
theorem train_val_split_zero_val_size_bug :
    (pyInt ((3:ℚ) * (1/10))).toNat = 0 ∧
    train_val_split_empty [("a", "b"), ("c", "d"), ("e", "f")] (1/10) =
      ([], [("a", "b"), ("c", "d"), ("e", "f")]) := by
  have h0 : (pyInt ((3:ℚ) * (1/10))).toNat = 0 := by
    rw [pyInt, if_neg (by norm_num)]
    norm_num
  refine ⟨h0, ?_⟩
  rw [train_val_split_empty]
  norm_num [pyInt, pySliceToNeg, pySliceFromNeg]

/-! ## `make_pair` (`lib/dataset.py:36-50`) -/

/-- Lexicographic comparison of character lists by Unicode code point — the
order Python's `sorted` uses on strings. -/
def lexLe : List Char → List Char → Bool
  | [], _ => true
  | _ :: _, [] => false
  | a :: as, b :: bs =>
      if a.toNat < b.toNat then true
      else if a.toNat = b.toNat then lexLe as bs
      else false

/-- Python string ordering, as a relation on `String`. -/
def strLe (a b : String) : Prop := lexLe a.data b.data = true

instance : DecidableRel strLe := fun a b => by
  unfold strLe; infer_instance

/-- Recognized input extensions (`lib/dataset.py:37`). -/
def input_exts : List String := [".wav", ".m4a", ".3gp", ".oma", ".mp3", ".mp4"]

/-- The recognized files of one directory listing, joined to the directory
and sorted — one of the two comprehensions of `make_pair`. -/
def sortedRecognized (dir : String) (ls : List String) : List String :=
  List.insertionSort strLe
    ((ls.filter (fun f => (pySplitext f).2 ∈ input_exts)).map (fun f => pyJoin dir f))

/-- Function `make_pair(mix_dir, inst_dir)` (`lib/dataset.py:36-50`), with the two
`os.listdir` results passed explicitly: both directory listings are filtered
to recognized extensions, joined to their directory, sorted, and zipped. -/
def make_pair (mix_dir inst_dir : String) (mix_ls inst_ls : List String) :
    List (String × String) :=
  (sortedRecognized mix_dir mix_ls).zip (sortedRecognized inst_dir inst_ls)

/-- Claim C10: `make_pair` zips the two sorted recognized-file lists, so its
length is the minimum of the two recognized-file counts (extra files of the
larger directory are silently dropped), and every returned pair consists of a
recognized file of `mix_dir` and a recognized file of `inst_dir`, paired
purely by sorted position. -/
theorem make_pair_zip_min (mix_dir inst_dir : String) (mix_ls inst_ls : List String) :
    make_pair mix_dir inst_dir mix_ls inst_ls =
      (sortedRecognized mix_dir mix_ls).zip (sortedRecognized inst_dir inst_ls) ∧
    (make_pair mix_dir inst_dir mix_ls inst_ls).length =
      min (mix_ls.filter (fun f => (pySplitext f).2 ∈ input_exts)).length
          (inst_ls.filter (fun f => (pySplitext f).2 ∈ input_exts)).length ∧
    ∀ pr ∈ make_pair mix_dir inst_dir mix_ls inst_ls,
      (∃ f ∈ mix_ls, (pySplitext f).2 ∈ input_exts ∧ pr.1 = pyJoin mix_dir f) ∧
      (∃ f ∈ inst_ls, (pySplitext f).2 ∈ input_exts ∧ pr.2 = pyJoin inst_dir f) := by
  refine ⟨rfl, ?_, ?_⟩
  · rw [make_pair, List.length_zip, sortedRecognized, sortedRecognized,
      List.length_insertionSort, List.length_insertionSort, List.length_map,
      List.length_map]
  · rintro ⟨a, b⟩ hab
    obtain ⟨ha, hb⟩ := List.of_mem_zip hab
    rw [sortedRecognized, List.mem_insertionSort, List.mem_map] at ha hb
    obtain ⟨f, hf, rfl⟩ := ha
    obtain ⟨g, hg, rfl⟩ := hb
    rw [List.mem_filter] at hf hg
    exact ⟨⟨f, hf.1, by simpa using hf.2, rfl⟩, ⟨g, hg.1, by simpa using hg.2, rfl⟩⟩

/-- Concrete instance of `make_pair_zip_min`: two recognized mix files, one
recognized instrumental file — one pair survives and the extra mix file is
dropped. -/
theorem make_pair_zip_min_witness :
    (make_pair "m" "i" ["b.wav", "a.wav", "notes.txt"] ["x.mp3"]).length = 1 :=
  ((make_pair_zip_min "m" "i" ["b.wav", "a.wav", "notes.txt"] ["x.mp3"]).2.1).trans
    (by decide)

/-! ## `VocalRemoverValidationSet` (`lib/dataset.py:13-33`) -/

/-- The 16 bin edges `np.linspace(-np.pi, np.pi + 1e-6, num=16)` computed by
`VocalRemoverValidationSet.__init__`: edge `i` is
`-π + i * ((π + 1e-6) - (-π)) / 15`. -/
noncomputable def label_bins (i : Fin 16) : ℝ :=
  -Real.pi + (i : ℕ) * ((Real.pi + 1e-6) - (-Real.pi)) / 15

open Classical in
/-- Model of `np.digitize(x, bins)` for strictly increasing `bins` (default
`right=False`): the number of bin edges that are `≤ x`. -/
noncomputable def digitize (x : ℝ) : ℕ :=
  (Finset.univ.filter (fun i : Fin 16 => label_bins i ≤ x)).card

/-- Method `VocalRemoverValidationSet.__getitem__` on one loaded artifact `(X, y)`,
the complex arrays taken entry-wise: magnitude and raw angle of `X`,
magnitude of `y`, and the angle of `y` digitized against `label_bins`. -/
noncomputable def VocalRemoverValidationSet_getitem (X y : List ℂ) :
    (List ℝ × List ℝ) × (List ℝ × List ℕ) :=
  ((X.map (fun z => Complex.abs z), X.map (fun z => Complex.arg z)),
   (y.map (fun z => Complex.abs z), y.map (fun z => digitize (Complex.arg z))))

lemma label_bins_zero : label_bins 0 = -Real.pi := by
  simp [label_bins]

lemma label_bins_last : label_bins 15 = Real.pi + 1e-6 := by
  rw [label_bins, show ((15 : Fin 16) : ℕ) = 15 from rfl]
  push_cast
  norm_num

/-- The angle of any complex number, which lies in `(-π, π]`, falls strictly
inside the edge range, so its digitized label is one of the 15 values
`1, …, 15`. -/
lemma digitize_arg_mem (z : ℂ) : digitize (Complex.arg z) ∈ Finset.Icc 1 15 := by
  classical
  rw [Finset.mem_Icc, digitize]
  constructor
  · refine Nat.one_le_iff_ne_zero.mpr (Finset.card_ne_zero_of_mem (a := (0 : Fin 16)) ?_)
    rw [Finset.mem_filter, label_bins_zero]
    exact ⟨Finset.mem_univ _, (Complex.neg_pi_lt_arg z).le⟩
  · have hsub : Finset.univ.filter (fun i : Fin 16 => label_bins i ≤ Complex.arg z) ⊆
        Finset.univ.erase 15 := by
      intro i hi
      rw [Finset.mem_filter] at hi
      rw [Finset.mem_erase]
      refine ⟨?_, Finset.mem_univ _⟩
      rintro rfl
      have h1 : Complex.arg z ≤ Real.pi := Complex.arg_le_pi z
      have h2 : label_bins 15 = Real.pi + 1e-6 := label_bins_last
      rw [h2] at hi
      nlinarith [hi.2]
    calc (Finset.univ.filter (fun i : Fin 16 => label_bins i ≤ Complex.arg z)).card
        ≤ (Finset.univ.erase (15 : Fin 16)).card := Finset.card_le_card hsub
      _ = 15 := by decide

/-- Claim C7: the validation lookup returns the entry-wise magnitudes of `X`
and `y`, the raw angle of `X`, and the angle of `y` digitized against 16
edges spanning `[-π, π + 1e-6]`; every resulting label lies in the fixed
15-element set `{1, …, 15}`. -/
theorem validation_getitem_phase_bins (X y : List ℂ) :
    VocalRemoverValidationSet_getitem X y =
      ((X.map (fun z => Complex.abs z), X.map (fun z => Complex.arg z)),
       (y.map (fun z => Complex.abs z), y.map (fun z => digitize (Complex.arg z)))) ∧
    label_bins 0 = -Real.pi ∧ label_bins 15 = Real.pi + 1e-6 ∧
    List.Forall (fun n => n ∈ Finset.Icc 1 15)
      ((VocalRemoverValidationSet_getitem X y).2.2) := by
  refine ⟨rfl, label_bins_zero, label_bins_last, ?_⟩
  rw [List.forall_iff_forall_mem]
  intro n hn
  rw [VocalRemoverValidationSet_getitem] at hn
  simp only [List.mem_map] at hn
  obtain ⟨z, _, rfl⟩ := hn
  exact digitize_arg_mem z

/-! ## `cache_or_load` (`lib/spec_utils.py:116-147`) -/

/-- The artifact path
`<dirname(p)>/sr{sr}_hl{hop_length}_nf{n_fft}/<splitext(basename(p))[0]>.npy`
derived in `cache_or_load` for a source audio path `p`. -/
def artifact_path (sr hop_length n_fft : ℕ) (p : String) : String :=
  pyJoin
    (pyJoin (pyDirname p)
      ("sr" ++ toString sr ++ "_hl" ++ toString hop_length ++ "_nf" ++ toString n_fft))
    ((pySplitext (pyBasename p)).1 ++ ".npy")

/-- Function `cache_or_load(mix_path, inst_path, sr, hop_length, n_fft)` as a state
transition on an explicit filesystem `fs` (a map from artifact path to stored
spectrogram). `F` abstracts the cache-miss work — decode of both waveforms,
alignment and the two STFTs (`lib/spec_utils.py:133-141`) — and the `Bool`
of the result records whether that work ran. On a hit both artifacts are
loaded unchanged; on a miss the pair is computed, the mix artifact is written
first and the instrumental artifact second, and the computed pair returned. -/
def cache_or_load (F : String → String → α × α) (mix_path inst_path : String)
    (sr hop_length n_fft : ℕ) (fs : String → Option α) :
    (String → Option α) × (α × α) × Bool :=
  let pm := artifact_path sr hop_length n_fft mix_path
  let pn := artifact_path sr hop_length n_fft inst_path
  match fs pm, fs pn with
  | some X, some y => (fs, (X, y), false)
  | _, _ =>
      let Xy := F mix_path inst_path
      (Function.update (Function.update fs pm (some Xy.1)) pn (some Xy.2), Xy, true)

/-- Claim C9, counterexample: when the two source paths share a directory and
a basename (`d/song.wav` and `d/song.mp3`) the two artifact paths coincide,
the second write clobbers the first, and a repeat call returns `(y, y)`
instead of the first call's `(X, y)`. -/
theorem cache_or_load_claim_counterexample :
    (cache_or_load (fun _ _ => ((0 : ℕ), 1)) "d/song.wav" "d/song.mp3" 1 2 3
        (fun _ => none)).2 = ((0, 1), true) ∧
    (cache_or_load (fun _ _ => ((0 : ℕ), 1)) "d/song.wav" "d/song.mp3" 1 2 3
        (cache_or_load (fun _ _ => ((0 : ℕ), 1)) "d/song.wav" "d/song.mp3" 1 2 3
          (fun _ => none)).1).2 = ((1, 1), false) ∧
    ((0 : ℕ), (1 : ℕ)) ≠ ((1 : ℕ), (1 : ℕ)) := by
  refine ⟨?_, ?_, by decide⟩ <;> decide

/-- Claim C9 (amended): provided the two derived artifact paths are distinct,
calling `cache_or_load` twice with identical arguments and no artifact
deletion in between returns the same pair both times, and the second call
does no decode/alignment/transform work (its work flag is `false`): it only
reads the two artifacts the first call wrote or found. -/
theorem cache_or_load_idempotent (F : String → String → α × α)
    (mix_path inst_path : String) (sr hop_length n_fft : ℕ)
    (fs : String → Option α)
    (hne : artifact_path sr hop_length n_fft mix_path ≠
      artifact_path sr hop_length n_fft inst_path) :
    (cache_or_load F mix_path inst_path sr hop_length n_fft
        (cache_or_load F mix_path inst_path sr hop_length n_fft fs).1).2 =
      ((cache_or_load F mix_path inst_path sr hop_length n_fft fs).2.1, false) := by
  rcases h1 : fs (artifact_path sr hop_length n_fft mix_path) with _ | X <;>
    rcases h2 : fs (artifact_path sr hop_length n_fft inst_path) with _ | y <;>
      simp [cache_or_load, h1, h2, Function.update_same,
        Function.update_noteq hne, Function.update_noteq (Ne.symm hne)]

theorem cache_or_load_idempotent_witness :
    (cache_or_load (fun _ _ => ((0 : ℕ), 1)) "d/a.wav" "d/b.wav" 1 2 3
        (cache_or_load (fun _ _ => ((0 : ℕ), 1)) "d/a.wav" "d/b.wav" 1 2 3
          (fun _ => none)).1).2 =
      ((cache_or_load (fun _ _ => ((0 : ℕ), 1)) "d/a.wav" "d/b.wav" 1 2 3
          (fun _ => none)).2.1, false) :=
  cache_or_load_idempotent _ _ _ _ _ _ _ (by decide)

/-! ## `make_validation_set` tiling (`lib/dataset.py:147-172`) -/

/-- The patch count per file pair in `make_validation_set`
(`lib/dataset.py:161`): `int(np.ceil(X.shape[2] / roi_size))` where `W =
X.shape[2]` is the unpadded time-length, as a ceiling division on `ℕ`. -/
def make_validation_set_count (W cropsize offset : ℕ) : ℕ :=
  (W + (make_padding W cropsize offset).2.2 - 1) / (make_padding W cropsize offset).2.2

lemma ceil_div_cases (W roi : ℕ) (h : 0 < roi) :
    (W + roi - 1) / roi = W / roi + if W % roi = 0 then 0 else 1 := by
  have h1 := Nat.div_add_mod W roi
  have h2 : W % roi < roi := Nat.mod_lt _ h
  by_cases hs : W % roi = 0
  · rw [if_pos hs]
    have hW : W + roi - 1 = roi * (W / roi) + (roi - 1) := by omega
    have hz : (roi - 1) / roi = 0 := Nat.div_eq_of_lt (by omega)
    rw [hW, Nat.mul_add_div h, hz]
  · rw [if_neg hs]
    have hW : W + roi - 1 = roi * (W / roi + 1) + (W % roi - 1) := by
      have h3 : roi * (W / roi + 1) = roi * (W / roi) + roi := by ring
      omega
    have hz : (W % roi - 1) / roi = 0 := Nat.div_eq_of_lt (by omega)
    rw [hW, Nat.mul_add_div h, hz]

/-- Claim C6, counterexample: at `W = 64`, `cropsize = 64`, `offset = 0` the
code produces `ceil(64 / 64) = 1` patch, while `ceil(pad(W)/roi_size)` for
the padded width `pad(W) = W + left + right = 128` would be `2`. -/
theorem make_validation_set_count_counterexample :
    make_validation_set_count 64 64 0 = 1 ∧
    make_padding 64 64 0 = (0, 64, 64) ∧
    (64 + (make_padding 64 64 0).1 + (make_padding 64 64 0).2.1 +
        (make_padding 64 64 0).2.2 - 1) / (make_padding 64 64 0).2.2 = 2 ∧
    (1 : ℕ) ≠ 2 := by decide

/-- Claim C6 (amended): for a pair with unpadded spectrogram time-length `W`,
`make_validation_set` produces exactly `ceil(W / roi_size)` patches (`W`, not
the padded width); window `j` is the contiguous size-`cropsize` slice of the
padded spectrogram starting at `j * roi_size`, and it lies inside the padded
width; the ROI-sized window centers are pairwise non-overlapping and cover
`[0, W)` with no gaps: every original frame `t < W` lies in the center of
exactly one window. -/
theorem make_validation_set_tiling (W cropsize offset : ℕ)
    (hoff : 2 * offset < cropsize) :
    make_validation_set_count W cropsize offset =
      (W + (make_padding W cropsize offset).2.2 - 1) /
        (make_padding W cropsize offset).2.2 ∧
    W ≤ make_validation_set_count W cropsize offset *
      (make_padding W cropsize offset).2.2 ∧
    (∀ j < make_validation_set_count W cropsize offset,
      j * (make_padding W cropsize offset).2.2 + cropsize ≤
        W + (make_padding W cropsize offset).1 + (make_padding W cropsize offset).2.1) ∧
    (∀ t < W, ∃ j, j < make_validation_set_count W cropsize offset ∧
      j * (make_padding W cropsize offset).2.2 ≤ t ∧
      t < j * (make_padding W cropsize offset).2.2 + (make_padding W cropsize offset).2.2 ∧
      ∀ j2, j2 < make_validation_set_count W cropsize offset →
        j2 * (make_padding W cropsize offset).2.2 ≤ t →
        t < j2 * (make_padding W cropsize offset).2.2 + (make_padding W cropsize offset).2.2 →
        j2 = j) := by
  have hroi0 : cropsize - offset * 2 ≠ 0 := by omega
  have hpad : make_padding W cropsize offset =
      (offset, cropsize - offset * 2 - W % (cropsize - offset * 2) + offset,
        cropsize - offset * 2) := by
    rw [make_padding]
    simp only [hroi0, if_false]
  rw [make_validation_set_count, hpad]
  simp only
  set roi := cropsize - offset * 2 with hroidef
  have hroipos : 0 < roi := by omega
  have hmod : W % roi < roi := Nat.mod_lt _ hroipos
  have hdm := Nat.div_add_mod W roi
  have hcnt : (W + roi - 1) / roi = W / roi + if W % roi = 0 then 0 else 1 :=
    ceil_div_cases W roi hroipos
  have hWle : W ≤ ((W + roi - 1) / roi) * roi := by
    rw [hcnt]
    by_cases hs : W % roi = 0
    · rw [if_pos hs]
      have h3 : (W / roi + 0) * roi = roi * (W / roi) := by ring
      omega
    · rw [if_neg hs]
      have h3 : (W / roi + 1) * roi = roi * (W / roi) + roi := by ring
      omega
  refine ⟨trivial, hWle, ?_, ?_⟩
  · intro j hj
    rw [hcnt] at hj
    have h3 : j * roi ≤ roi * (W / roi) := by
      have h4 : j * roi = roi * j := by ring
      have h5 : roi * j ≤ roi * (W / roi) := by
        apply Nat.mul_le_mul_left
        by_cases hs : W % roi = 0
        · rw [if_pos hs] at hj; omega
        · rw [if_neg hs] at hj; omega
    -- `j ≤ W / roi` in both cases except `W % roi = 0` where `j < W / roi`
      omega
    by_cases hs : W % roi = 0
    · rw [if_pos hs] at hj
      have h6 : j * roi = roi * j := by ring
      have h7 : roi * (j + 1) ≤ roi * (W / roi) := Nat.mul_le_mul_left _ (by omega)
      have h8 : roi * (j + 1) = roi * j + roi := by ring
      omega
    · omega
  · intro t ht
    refine ⟨t / roi, ?_, ?_, ?_, ?_⟩
    · have h3 : t < ((W + roi - 1) / roi) * roi := lt_of_lt_of_le ht hWle
      exact (Nat.div_lt_iff_lt_mul hroipos).mpr h3
    · exact Nat.div_mul_le_self t roi
    · have h3 := Nat.div_add_mod t roi
      have h4 : t % roi < roi := Nat.mod_lt _ hroipos
      have h5 : t / roi * roi = roi * (t / roi) := by ring
      omega
    · intro j2 _ hle hlt
      have h3 : j2 ≤ t / roi := (Nat.le_div_iff_mul_le hroipos).mpr hle
      have h4 : t / roi < j2 + 1 := by
        apply (Nat.div_lt_iff_lt_mul hroipos).mpr
        have h5 : (j2 + 1) * roi = j2 * roi + roi := by ring
        omega
      omega

theorem make_validation_set_tiling_witness :
    make_validation_set_count 100 64 4 =
      (100 + (make_padding 100 64 4).2.2 - 1) / (make_padding 100 64 4).2.2 ∧
    100 ≤ make_validation_set_count 100 64 4 * (make_padding 100 64 4).2.2 ∧
    (∀ j < make_validation_set_count 100 64 4,
      j * (make_padding 100 64 4).2.2 + 64 ≤
        100 + (make_padding 100 64 4).1 + (make_padding 100 64 4).2.1) ∧
    (∀ t < 100, ∃ j, j < make_validation_set_count 100 64 4 ∧
      j * (make_padding 100 64 4).2.2 ≤ t ∧
      t < j * (make_padding 100 64 4).2.2 + (make_padding 100 64 4).2.2 ∧
      ∀ j2, j2 < make_validation_set_count 100 64 4 →
        j2 * (make_padding 100 64 4).2.2 ≤ t →
        t < j2 * (make_padding 100 64 4).2.2 + (make_padding 100 64 4).2.2 →
        j2 = j) :=
  make_validation_set_tiling 100 64 4 (by decide)

/-! ## `mixup_generator` (`lib/dataset.py:69-76`) -/

/-- The elementwise blend `lam * u + (1 - lam) * v` applied to a pair of
entries (arrays flattened entry-wise). -/
def mix_blend (lam : ℚ) (u v : List ℚ) : List ℚ :=
  List.zipWith (fun a b => lam * a + (1 - lam) * b) u v

/-- One iteration of the mixup loop (`lib/dataset.py:73`): the in-place
assignment `X[p] = lam * X[p] + (1 - lam) * X[q]`, on an array modelled as an
index function. -/
def mixupStep (lam : ℚ) (X : ℕ → List ℚ) (p q : ℕ) : ℕ → List ℚ :=
  Function.update X p (mix_blend lam (X p) (X q))

/-- The first `i` iterations of `for i in range(len(perm) - 1)`: iteration
`i` assigns `X[perm[i]]` from the current `X[perm[i]]` and `X[perm[i+1]]`
with its own Beta draw `lam i`. -/
def mixupRun (lam : ℕ → ℚ) (perm : ℕ → ℕ) : ℕ → (ℕ → List ℚ) → ℕ → List ℚ
  | 0, X => X
  | i + 1, X => mixupStep (lam i) (mixupRun lam perm i X) (perm i) (perm (i + 1))

/-- Function `mixup_generator(X, y, rate, alpha)` (`lib/dataset.py:69-76`): `perm` is
the random permutation truncated to `m = int(len(X) * rate)` entries and
`lam i` the Beta(alpha, alpha) draw of iteration `i`; the loop body runs for
`i = 0, …, m - 2` and mutates `X` and `y` with the same draws. -/
def mixup_generator (lam : ℕ → ℚ) (perm : ℕ → ℕ) (m : ℕ) (X y : ℕ → List ℚ) :
    (ℕ → List ℚ) × (ℕ → List ℚ) :=
  (mixupRun lam perm (m - 1) X, mixupRun lam perm (m - 1) y)

/-- Positions not assigned by any of the first `i` iterations still hold
their original value. -/
lemma mixupRun_untouched (lam : ℕ → ℚ) (perm : ℕ → ℕ) (X : ℕ → List ℚ) :
    ∀ i q, (∀ j, j < i → perm j ≠ q) → mixupRun lam perm i X q = X q := by
  intro i
  induction i with
  | zero => intro q _; rfl
  | succ i ih =>
      intro q hq
      rw [mixupRun, mixupStep, Function.update_noteq (Ne.symm (hq i (by omega)))]
      exact ih q (fun j hj => hq j (by omega))

/-- After `i ≤ m - 1` iterations, position `perm j` for `j < i` holds the
blend of the ORIGINAL entries at `perm j` and `perm (j+1)`: the neighbour
read in iteration `j` had not yet been mixed. -/
lemma mixupRun_value (lam : ℕ → ℚ) (perm : ℕ → ℕ) (m : ℕ) (X : ℕ → List ℚ)
    (hinj : ∀ a, a < m → ∀ b, b < m → perm a = perm b → a = b) :
    ∀ i, i ≤ m - 1 → ∀ j, j < i →
      mixupRun lam perm i X (perm j) = mix_blend (lam j) (X (perm j)) (X (perm (j + 1))) := by
  intro i
  induction i with
  | zero => intro _ j hj; omega
  | succ i ih =>
      intro hi j hj
      have him : i < m := by omega
      rcases Nat.lt_or_ge j i with hji | hji
      · rw [mixupRun, mixupStep, Function.update_noteq]
        · exact ih (by omega) j hji
        · intro he
          have := hinj j (by omega) i him he
          omega
      · have hji2 : j = i := by omega
        subst hji2
        rw [mixupRun, mixupStep, Function.update_same]
        have h1 : mixupRun lam perm j X (perm j) = X (perm j) := by
          apply mixupRun_untouched
          intro j2 hj2 he
          have := hinj j2 (by omega) j (by omega) he
          omega
        have h2 : mixupRun lam perm j X (perm (j + 1)) = X (perm (j + 1)) := by
          apply mixupRun_untouched
          intro j2 hj2 he
          have := hinj j2 (by omega) (j + 1) (by omega) he
          omega
        rw [h1, h2]

lemma mix_blend_getD (lam : ℚ) (u v : List ℚ) (c : ℕ)
    (h : c < (mix_blend lam u v).length) :
    (mix_blend lam u v).getD c 0 = lam * u.getD c 0 + (1 - lam) * v.getD c 0 := by
  have h2 : c < u.length := by rw [mix_blend, List.length_zipWith] at h; omega
  have h3 : c < v.length := by rw [mix_blend, List.length_zipWith] at h; omega
  rw [List.getD_eq_getElem _ _ h, List.getD_eq_getElem _ _ h2, List.getD_eq_getElem _ _ h3]
  exact List.getElem_zipWith

lemma blend_between (lam a b : ℚ) (h0 : 0 ≤ lam) (h1 : lam ≤ 1) :
    min a b ≤ lam * a + (1 - lam) * b ∧ lam * a + (1 - lam) * b ≤ max a b := by
  rcases le_total a b with h | h
  · rw [min_eq_left h, max_eq_right h]
    constructor <;> nlinarith
  · rw [min_eq_right h, max_eq_left h]
    constructor <;> nlinarith

/-- Claim C8: each replaced entry `perm j` (for `j + 1 < m`, `m` the number of
selected indices) equals the blend of the ORIGINAL, un-mixed entries at
`perm j` and `perm (j+1)` — distinct permutation entries mean the neighbour
read is never an already-mixed value — and, since the Beta draw lies in
`[0, 1]`, every coordinate of the replacement lies within the elementwise
min/max hull of the two original entries. Both the `X` and the `y` arrays. -/
theorem mixup_generator_convex (lam : ℕ → ℚ) (perm : ℕ → ℕ) (m : ℕ)
    (X y : ℕ → List ℚ)
    (hinj : ∀ a, a < m → ∀ b, b < m → perm a = perm b → a = b)
    (hlam : ∀ i, 0 ≤ lam i ∧ lam i ≤ 1) :
    ∀ j, j + 1 < m →
      (mixup_generator lam perm m X y).1 (perm j) =
        mix_blend (lam j) (X (perm j)) (X (perm (j + 1))) ∧
      (mixup_generator lam perm m X y).2 (perm j) =
        mix_blend (lam j) (y (perm j)) (y (perm (j + 1))) ∧
      (∀ c, c < ((mixup_generator lam perm m X y).1 (perm j)).length →
        min ((X (perm j)).getD c 0) ((X (perm (j + 1))).getD c 0) ≤
            ((mixup_generator lam perm m X y).1 (perm j)).getD c 0 ∧
          ((mixup_generator lam perm m X y).1 (perm j)).getD c 0 ≤
            max ((X (perm j)).getD c 0) ((X (perm (j + 1))).getD c 0)) ∧
      (∀ c, c < ((mixup_generator lam perm m X y).2 (perm j)).length →
        min ((y (perm j)).getD c 0) ((y (perm (j + 1))).getD c 0) ≤
            ((mixup_generator lam perm m X y).2 (perm j)).getD c 0 ∧
          ((mixup_generator lam perm m X y).2 (perm j)).getD c 0 ≤
            max ((y (perm j)).getD c 0) ((y (perm (j + 1))).getD c 0)) := by
  intro j hj
  have hX : (mixup_generator lam perm m X y).1 (perm j) =
      mix_blend (lam j) (X (perm j)) (X (perm (j + 1))) :=
    mixupRun_value lam perm m X hinj (m - 1) (le_refl _) j (by omega)
  have hy : (mixup_generator lam perm m X y).2 (perm j) =
      mix_blend (lam j) (y (perm j)) (y (perm (j + 1))) :=
    mixupRun_value lam perm m y hinj (m - 1) (le_refl _) j (by omega)
  refine ⟨hX, hy, ?_, ?_⟩
  · intro c hc
    rw [hX] at hc ⊢
    rw [mix_blend_getD _ _ _ _ hc]
    exact blend_between _ _ _ (hlam j).1 (hlam j).2
  · intro c hc
    rw [hy] at hc ⊢
    rw [mix_blend_getD _ _ _ _ hc]
    exact blend_between _ _ _ (hlam j).1 (hlam j).2

/-- Concrete instance of `mixup_generator_convex`: two selected indices,
`lam = 1/2`, identity permutation, instantiated at `j = 0`. -/
theorem mixup_generator_convex_witness :
    (mixup_generator (fun _ => 1/2) (fun i => i) 2
        (fun _ => [0, 4]) (fun _ => [2, 2])).1 0 =
      mix_blend (1/2) [(0:ℚ), 4] [(0:ℚ), 4] ∧
    (mixup_generator (fun _ => 1/2) (fun i => i) 2
        (fun _ => [0, 4]) (fun _ => [2, 2])).2 0 =
      mix_blend (1/2) [(2:ℚ), 2] [(2:ℚ), 2] ∧
    (∀ c, c < ((mixup_generator (fun _ => 1/2) (fun i => i) 2
          (fun _ => [0, 4]) (fun _ => [2, 2])).1 0).length →
      min (List.getD [(0:ℚ), 4] c 0) (List.getD [(0:ℚ), 4] c 0) ≤
          ((mixup_generator (fun _ => 1/2) (fun i => i) 2
            (fun _ => [0, 4]) (fun _ => [2, 2])).1 0).getD c 0 ∧
        ((mixup_generator (fun _ => 1/2) (fun i => i) 2
            (fun _ => [0, 4]) (fun _ => [2, 2])).1 0).getD c 0 ≤
          max (List.getD [(0:ℚ), 4] c 0) (List.getD [(0:ℚ), 4] c 0)) ∧
    (∀ c, c < ((mixup_generator (fun _ => 1/2) (fun i => i) 2
          (fun _ => [0, 4]) (fun _ => [2, 2])).2 0).length →
      min (List.getD [(2:ℚ), 2] c 0) (List.getD [(2:ℚ), 2] c 0) ≤
          ((mixup_generator (fun _ => 1/2) (fun i => i) 2
            (fun _ => [0, 4]) (fun _ => [2, 2])).2 0).getD c 0 ∧
        ((mixup_generator (fun _ => 1/2) (fun i => i) 2
            (fun _ => [0, 4]) (fun _ => [2, 2])).2 0).getD c 0 ≤
          max (List.getD [(2:ℚ), 2] c 0) (List.getD [(2:ℚ), 2] c 0)) :=
  mixup_generator_convex (fun _ => 1/2) (fun i => i) 2 (fun _ => [0, 4]) (fun _ => [2, 2])
    (fun a _ b _ h => h) (fun _ => by norm_num) 0 (by norm_num)

/-! ## `get_oracle_data` (`lib/dataset.py:79-87`) -/

/-- Formula `k = int(len(X) * oracle_rate * (1 / (1 - oracle_drop_rate)))`. -/
def oracle_k (N : ℕ) (oracle_rate oracle_drop_rate : ℚ) : ℕ :=
  (pyInt ((N : ℚ) * oracle_rate * (1 / (1 - oracle_drop_rate)))).toNat

/-- Formula `n = int(len(X) * oracle_rate)`. -/
def oracle_n (N : ℕ) (oracle_rate : ℚ) : ℕ :=
  (pyInt ((N : ℚ) * oracle_rate)).toNat

/-- Comparison of indices by loss value, ascending — the order
`np.argsort(instance_loss)` sorts by (ties broken by the sort, a valid
realization of the unstable quicksort numpy uses). -/
def lossLe (loss : List ℚ) (i j : ℕ) : Prop := loss.getD i 0 ≤ loss.getD j 0

instance (loss : List ℚ) : DecidableRel (lossLe loss) := fun i j =>
  inferInstanceAs (Decidable (loss.getD i 0 ≤ loss.getD j 0))

instance (loss : List ℚ) : IsTotal ℕ (lossLe loss) := ⟨fun _ _ => le_total _ _⟩

instance (loss : List ℚ) : IsTrans ℕ (lossLe loss) := ⟨fun _ _ _ => le_trans⟩

/-- Model of `np.argsort(instance_loss)[::-1]`: the indices `0, …, len-1`
sorted ascending by loss, reversed to descending. -/
def argsortDesc (loss : List ℚ) : List ℕ :=
  (List.insertionSort (lossLe loss) (List.range loss.length)).reverse

lemma argsortDesc_length (loss : List ℚ) : (argsortDesc loss).length = loss.length := by
  rw [argsortDesc, List.length_reverse, List.length_insertionSort, List.length_range]

lemma argsortDesc_nodup (loss : List ℚ) : (argsortDesc loss).Nodup := by
  rw [argsortDesc, List.nodup_reverse]
  exact ((List.perm_insertionSort _ _).nodup_iff).mpr (List.nodup_range _)

lemma argsortDesc_mem (loss : List ℚ) (i : ℕ) :
    i ∈ argsortDesc loss ↔ i < loss.length := by
  rw [argsortDesc, List.mem_reverse, List.mem_insertionSort, List.mem_range]

/-- Every index in the first `k` entries of the descending argsort dominates
(in loss) every index in the remainder. -/
lemma argsortDesc_dominates (loss : List ℚ) (k : ℕ) :
    ∀ a ∈ (argsortDesc loss).take k, ∀ b ∈ (argsortDesc loss).drop k,
      loss.getD b 0 ≤ loss.getD a 0 := by
  have hs : List.Pairwise (lossLe loss)
      (List.insertionSort (lossLe loss) (List.range loss.length)) :=
    List.sorted_insertionSort _ _
  have hr : List.Pairwise (fun a b => lossLe loss b a) (argsortDesc loss) := by
    rw [argsortDesc, List.pairwise_reverse]
    exact hs
  have hsplit := List.take_append_drop k (argsortDesc loss)
  rw [← hsplit] at hr
  intro a ha b hb
  exact (List.pairwise_append.mp hr).2.2 a ha b hb

/-- Model of `np.random.choice(pool, n, replace=False)`: draws `n` elements
from `pool` one by one, removing each drawn element; the position of each
draw is determined by the external random stream `seed`; returns `none`
(numpy raises `ValueError`) when the pool has fewer than `n` elements. -/
def sampleWR (seed : ℕ → ℕ) : ℕ → List ℕ → Option (List ℕ)
  | 0, _ => some []
  | n + 1, pool =>
      if pool.length = 0 then none
      else
        match sampleWR seed n (pool.eraseIdx (seed n % pool.length)) with
        | none => none
        | some rest => some (pool.getD (seed n % pool.length) 0 :: rest)

lemma getD_not_mem_eraseIdx (l : List ℕ) :
    ∀ j, j < l.length → l.Nodup → l.getD j 0 ∉ l.eraseIdx j := by
  induction l with
  | nil => intro j hj; simp at hj
  | cons a t ih =>
      intro j hj hn
      rcases j with _ | j
      · rw [List.getD_cons_zero, List.eraseIdx_cons_zero]
        exact (List.nodup_cons.mp hn).1
      · rw [List.getD_cons_succ, List.eraseIdx_cons_succ, List.mem_cons]
        rintro (he | hm)
        · have hmem : t.getD j 0 ∈ t := by
            rw [List.getD_eq_getElem _ _ (by simpa using Nat.lt_of_succ_lt_succ hj)]
            exact List.getElem_mem _
          rw [he] at hmem
          exact (List.nodup_cons.mp hn).1 hmem
        · exact ih j (by simpa using Nat.lt_of_succ_lt_succ hj) (List.nodup_cons.mp hn).2 hm

/-- When the pool is large enough, sampling without replacement succeeds and
returns `n` elements of the pool, with no repeats if the pool has none. -/
lemma sampleWR_spec (seed : ℕ → ℕ) :
    ∀ n pool, n ≤ pool.length →
      ∃ l, sampleWR seed n pool = some l ∧ l.length = n ∧
        (∀ x ∈ l, x ∈ pool) ∧ (pool.Nodup → l.Nodup) := by
  intro n
  induction n with
  | zero => intro pool _; exact ⟨[], rfl, rfl, by simp, fun _ => List.nodup_nil⟩
  | succ n ih =>
      intro pool hn
      have hlen0 : pool.length ≠ 0 := by omega
      have hjlt : seed n % pool.length < pool.length :=
        Nat.mod_lt _ (by omega)
      have herlen : (pool.eraseIdx (seed n % pool.length)).length = pool.length - 1 := by
        rw [List.length_eraseIdx]
        simp [hjlt]
      obtain ⟨rest, hrest, hrlen, hrmem, hrnd⟩ :=
        ih (pool.eraseIdx (seed n % pool.length)) (by omega)
      refine ⟨pool.getD (seed n % pool.length) 0 :: rest, ?_, by simp [hrlen], ?_, ?_⟩
      · rw [sampleWR, if_neg hlen0, hrest]
      · intro x hx
        rcases List.mem_cons.mp hx with he | hm
        · rw [he, List.getD_eq_getElem _ _ hjlt]
          exact List.getElem_mem _
        · exact (List.eraseIdx_sublist pool (seed n % pool.length)).mem (hrmem x hm)
      · intro hnd
        rw [List.nodup_cons]
        refine ⟨fun hmem => ?_, hrnd (List.Nodup.sublist (List.eraseIdx_sublist _ _) hnd)⟩
        exact getD_not_mem_eraseIdx pool _ hjlt hnd (hrmem _ hmem)

/-- When the pool is too small, sampling without replacement fails. -/
lemma sampleWR_none (seed : ℕ → ℕ) :
    ∀ n pool, pool.length < n → sampleWR seed n pool = none := by
  intro n
  induction n with
  | zero => intro pool h; omega
  | succ n ih =>
      intro pool hn
      by_cases h0 : pool.length = 0
      · rw [sampleWR, if_pos h0]
      · have herlen : (pool.eraseIdx (seed n % pool.length)).length = pool.length - 1 := by
          rw [List.length_eraseIdx]
          simp [Nat.mod_lt _ (Nat.pos_of_ne_zero h0)]
        rw [sampleWR, if_neg h0, ih _ (by omega)]

/-- Function `get_oracle_data(X, y, instance_loss, oracle_rate,
oracle_drop_rate)` (`lib/dataset.py:79-87`): ranks indices by loss
descending, keeps the top `k`, samples `n` of them without replacement, and
returns copies of the selected entries of `X` and `y` along with the
indices; `none` models the `ValueError` numpy raises when `replace=False`
cannot be honoured. -/
def get_oracle_data (X y instance_loss : List ℚ)
    (oracle_rate oracle_drop_rate : ℚ) (seed : ℕ → ℕ) :
    Option (List ℚ × List ℚ × List ℕ) :=
  let k := oracle_k X.length oracle_rate oracle_drop_rate
  let n := oracle_n X.length oracle_rate
  match sampleWR seed n ((argsortDesc instance_loss).take k) with
  | none => none
  | some idx => some (idx.map (fun i => X.getD i 0), idx.map (fun i => y.getD i 0), idx)

lemma pyInt_toNat_mono {a b : ℚ} (ha : 0 ≤ a) (hab : a ≤ b) :
    (pyInt a).toNat ≤ (pyInt b).toNat := by
  rw [pyInt, pyInt, if_neg (by linarith), if_neg (by linarith)]
  exact Int.toNat_le_toNat (Int.floor_le_floor hab)

lemma pyInt_natCast (N : ℕ) : (pyInt (N : ℚ)).toNat = N := by
  rw [pyInt, if_neg (not_lt.mpr (Nat.cast_nonneg N))]
  rw [Int.floor_natCast]
  exact Int.toNat_natCast N

/-- Claim C4: `k` and `n` follow the floor formulas (in particular `k = 40`,
`n = 20` for `N = 100`, `oracle_rate = 1/5`, `oracle_drop_rate = 1/2`), and
for `0 ≤ oracle_rate ≤ 1` and `0 ≤ oracle_drop_rate < 1` the selection always
succeeds with exactly `n` distinct indices, each taken from the top-`k`
descending-loss pool and dominating every non-pool index in loss; the
returned `oracle_X`/`oracle_y` hold the values of the selected entries. -/
theorem get_oracle_data_valid (X y instance_loss : List ℚ)
    (oracle_rate oracle_drop_rate : ℚ) (seed : ℕ → ℕ)
    (hr0 : 0 ≤ oracle_rate) (hr1 : oracle_rate ≤ 1)
    (hd0 : 0 ≤ oracle_drop_rate) (hd1 : oracle_drop_rate < 1)
    (hlen : instance_loss.length = X.length) :
    oracle_k 100 (1/5) (1/2) = 40 ∧ oracle_n 100 (1/5) = 20 ∧
    ∃ idx,
      get_oracle_data X y instance_loss oracle_rate oracle_drop_rate seed =
        some (idx.map (fun i => X.getD i 0), idx.map (fun i => y.getD i 0), idx) ∧
      idx.length = oracle_n X.length oracle_rate ∧
      idx.Nodup ∧
      (∀ i ∈ idx,
        i ∈ (argsortDesc instance_loss).take
          (oracle_k X.length oracle_rate oracle_drop_rate)) ∧
      (∀ i ∈ idx, ∀ j, j < instance_loss.length →
        j ∉ (argsortDesc instance_loss).take
          (oracle_k X.length oracle_rate oracle_drop_rate) →
        instance_loss.getD j 0 ≤ instance_loss.getD i 0) := by
  refine ⟨by rw [oracle_k]; norm_num [pyInt]; rfl,
    by rw [oracle_n]; norm_num [pyInt]; rfl, ?_⟩
  have hkn : oracle_n X.length oracle_rate ≤
      oracle_k X.length oracle_rate oracle_drop_rate := by
    apply pyInt_toNat_mono (by positivity)
    have h1 : (1 : ℚ) ≤ 1 / (1 - oracle_drop_rate) := by
      rw [le_div_iff₀ (by linarith)]
      linarith
    nlinarith [mul_nonneg (Nat.cast_nonneg (α := ℚ) X.length) hr0]
  have hnN : oracle_n X.length oracle_rate ≤ X.length := by
    have h1 : (pyInt ((X.length : ℚ) * oracle_rate)).toNat ≤ (pyInt (X.length : ℚ)).toNat :=
      pyInt_toNat_mono (by positivity)
        (by nlinarith [Nat.cast_nonneg (α := ℚ) X.length])
    rw [pyInt_natCast] at h1
    exact h1
  have hpoollen : ((argsortDesc instance_loss).take
      (oracle_k X.length oracle_rate oracle_drop_rate)).length =
      min (oracle_k X.length oracle_rate oracle_drop_rate) X.length := by
    rw [List.length_take, argsortDesc_length, hlen]
  obtain ⟨idx, hsamp, hlen2, hmem, hnd⟩ :=
    sampleWR_spec seed (oracle_n X.length oracle_rate)
      ((argsortDesc instance_loss).take (oracle_k X.length oracle_rate oracle_drop_rate))
      (by rw [hpoollen]; omega)
  refine ⟨idx, ?_, hlen2, ?_, hmem, ?_⟩
  · rw [get_oracle_data]
    simp only [hsamp]
  · exact hnd (List.Nodup.sublist (List.take_sublist _ _) (argsortDesc_nodup _))
  · intro i hi j hj hjpool
    have hjmem : j ∈ argsortDesc instance_loss := (argsortDesc_mem _ _).mpr hj
    have hsplit := List.take_append_drop
      (oracle_k X.length oracle_rate oracle_drop_rate) (argsortDesc instance_loss)
    rw [← hsplit, List.mem_append] at hjmem
    rcases hjmem with h | h
    · exact absurd h hjpool
    · exact argsortDesc_dominates instance_loss _ i (hmem i hi) j h

/-- Concrete instance of `get_oracle_data_valid`: five entries, full rate. -/
theorem get_oracle_data_valid_witness :
    oracle_k 100 (1/5) (1/2) = 40 ∧ oracle_n 100 (1/5) = 20 ∧
    ∃ idx,
      get_oracle_data [5, 6, 7, 8, 9] [1, 2, 3, 4, 5] [3, 1, 2, 0, 4] 1 0 (fun _ => 0) =
        some (idx.map (fun i => List.getD [5, 6, 7, 8, 9] i 0),
          idx.map (fun i => List.getD [1, 2, 3, 4, 5] i 0), idx) ∧
      idx.length = oracle_n (List.length [(5:ℚ), 6, 7, 8, 9]) 1 ∧
      idx.Nodup ∧
      (∀ i ∈ idx,
        i ∈ (argsortDesc [3, 1, 2, 0, 4]).take
          (oracle_k (List.length [(5:ℚ), 6, 7, 8, 9]) 1 0)) ∧
      (∀ i ∈ idx, ∀ j, j < List.length [(3:ℚ), 1, 2, 0, 4] →
        j ∉ (argsortDesc [3, 1, 2, 0, 4]).take
          (oracle_k (List.length [(5:ℚ), 6, 7, 8, 9]) 1 0) →
        List.getD [3, 1, 2, 0, 4] j 0 ≤ List.getD [(3:ℚ), 1, 2, 0, 4] i 0) :=
  get_oracle_data_valid [5, 6, 7, 8, 9] [1, 2, 3, 4, 5] [3, 1, 2, 0, 4] 1 0 (fun _ => 0)
    (by norm_num) (by norm_num) (by norm_num) (by norm_num) (by simp)

/-- Claim C5: when the hard-example pool is smaller than the requested sample
size the operation fails (`none`, modelling numpy's `ValueError` from
`replace=False` — the "InsufficientPoolError" of the spec) rather than
silently sampling with replacement, and a successful selection never contains
a repeated index. -/
theorem get_oracle_data_underflow (X y instance_loss : List ℚ)
    (oracle_rate oracle_drop_rate : ℚ) (seed : ℕ → ℕ) :
    (((argsortDesc instance_loss).take
        (oracle_k X.length oracle_rate oracle_drop_rate)).length <
        oracle_n X.length oracle_rate →
      get_oracle_data X y instance_loss oracle_rate oracle_drop_rate seed = none) ∧
    (∀ oX oy idx,
      get_oracle_data X y instance_loss oracle_rate oracle_drop_rate seed =
        some (oX, oy, idx) → idx.Nodup) := by
  constructor
  · intro hlt
    rw [get_oracle_data]
    simp only [sampleWR_none seed _ _ hlt]
  · intro oX oy idx h
    rw [get_oracle_data] at h
    rcases hs : sampleWR seed (oracle_n X.length oracle_rate)
        ((argsortDesc instance_loss).take
          (oracle_k X.length oracle_rate oracle_drop_rate)) with _ | idx2
    · rw [hs] at h
      simp at h
    · rw [hs] at h
      simp only [Option.some_inj] at h
      have hidx : idx = idx2 := by
        have h2 := congrArg (fun t => t.2.2) h
        simpa using h2.symm
      subst hidx
      rcases Nat.lt_or_ge ((argsortDesc instance_loss).take
          (oracle_k X.length oracle_rate oracle_drop_rate)).length
          (oracle_n X.length oracle_rate) with hlt | hge
      · rw [sampleWR_none seed _ _ hlt] at hs
        exact absurd hs (by simp)
      · obtain ⟨l, hl, _, _, hnd⟩ := sampleWR_spec seed _ _ hge
        rw [hl] at hs
        have h3 : l = idx := by simpa using hs
        subst h3
        exact hnd (List.Nodup.sublist (List.take_sublist _ _) (argsortDesc_nodup _))

/-- Concrete instance of `get_oracle_data_underflow`: with
`oracle_drop_rate = -1` (unvalidated by the code) the pool `k = 2` is smaller
than `n = 4`, and the call fails. -/
theorem get_oracle_data_underflow_witness :
    get_oracle_data [0, 0, 0, 0] [0, 0, 0, 0] [3, 1, 2, 0] 1 (-1) (fun _ => 0) = none := by
  apply (get_oracle_data_underflow [0, 0, 0, 0] [0, 0, 0, 0] [3, 1, 2, 0] 1 (-1)
    (fun _ => 0)).1
  have hk : oracle_k (List.length [(0:ℚ), 0, 0, 0]) 1 (-1) = 2 := by
    rw [oracle_k]; norm_num [pyInt]; rfl
  have hn : oracle_n (List.length [(0:ℚ), 0, 0, 0]) 1 = 4 := by
    rw [oracle_n]; norm_num [pyInt]; rfl
  rw [hk, hn]
  rw [List.length_take, argsortDesc_length]
  norm_num

end VocalRemover
